import Mathlib

/-!
Shallow embedding of the scvi-tools training-task and posterior-evaluation
layer (files `scvi/core/lightning/_vaetask.py` and `scvi/inference/posterior.py`)
together with proofs of the specification claims about it.

Numeric conventions: Python integers become `Nat`; float quantities that the
claims evaluate exactly (epoch statistics, KL-warmup weights, accuracy
fractions) become `Rat`; float quantities flowing through transcendental
torch operations (log-softmax, cross-entropy) become `Real`.
-/

namespace Scvi

/-! ### Step records and epoch-end aggregation (`VAETask`) -/

/-- Dictionary returned by `VAETask.training_step`: the summed reconstruction
loss, summed local KL, global KL scalar and the observation count of the
minibatch (the `loss` key is not read by the epoch-end aggregation, so it is
omitted from this aggregation-side record). -/
structure StepRecord where
  reconstruction_loss_sum : ℚ
  kl_local_sum : ℚ
  kl_global : ℚ
  n_obs : ℕ
deriving DecidableEq, Repr

/-- Metrics logged at epoch end (`elbo_*`, `reconstruction_loss_*`,
`kl_local_*`, `kl_global_*`). -/
structure EpochMetrics where
  elbo : ℚ
  reconstruction_loss : ℚ
  kl_local : ℚ
  kl_global : ℚ
deriving DecidableEq, Repr

/-- Body of the `for tensors in outputs` accumulation loop shared by
`training_epoch_end` and `validation_epoch_end`: running
(elbo, rec_loss, kl_local, n_obs) quadruple. -/
def epochAccum (acc : ℚ × ℚ × ℚ × ℕ) (t : StepRecord) : ℚ × ℚ × ℚ × ℕ :=
  (acc.1 + (t.reconstruction_loss_sum + t.kl_local_sum),
   acc.2.1 + t.reconstruction_loss_sum,
   acc.2.2.1 + t.kl_local_sum,
   acc.2.2.2 + t.n_obs)

/-- `VAETask.training_epoch_end`.  After the loop, `tensors` is bound to the
last record (on an empty list the Python name `tensors` is unbound, a
`NameError`, modelled by `none`).  The global KL read from the last record is
added to the accumulated `elbo` sum before the division by `n_obs`. -/
def training_epoch_end (outputs : List StepRecord) : Option EpochMetrics :=
  match outputs.getLast? with
  | none => none
  | some tensors =>
    let acc := outputs.foldl epochAccum (0, 0, 0, 0)
    let kl_global := tensors.kl_global
    let elbo := acc.1 + kl_global
    some { elbo := elbo / (acc.2.2.2 : ℚ)
         , reconstruction_loss := acc.2.1 / (acc.2.2.2 : ℚ)
         , kl_local := acc.2.2.1 / (acc.2.2.2 : ℚ)
         , kl_global := kl_global }

/-- `VAETask.validation_epoch_end`; its body is line-for-line the same
aggregation as `training_epoch_end` (only the logged metric names differ). -/
def validation_epoch_end (outputs : List StepRecord) : Option EpochMetrics :=
  match outputs.getLast? with
  | none => none
  | some tensors =>
    let acc := outputs.foldl epochAccum (0, 0, 0, 0)
    let kl_global := tensors.kl_global
    let elbo := acc.1 + kl_global
    some { elbo := elbo / (acc.2.2.2 : ℚ)
         , reconstruction_loss := acc.2.1 / (acc.2.2.2 : ℚ)
         , kl_local := acc.2.2.1 / (acc.2.2.2 : ℚ)
         , kl_global := kl_global }

/-! ### KL-warmup weight (`VAETask.kl_weight`) -/

/-- Runtime state read by the `kl_weight` property: the orchestrator-owned
epoch/step counters plus the two optional warmup horizons fixed at
construction. -/
structure VAETaskState where
  current_epoch : ℕ
  global_step : ℕ
  n_epochs_kl_warmup : Option ℕ
  n_steps_kl_warmup : Option ℕ
deriving DecidableEq, Repr

/-- `VAETask.kl_weight`: the epoch criterion (`n_epochs_kl_warmup is not
None`) is tested first, then the step criterion, else 1.0. -/
def kl_weight (s : VAETaskState) : ℚ :=
  match s.n_epochs_kl_warmup with
  | some horizon => min 1 ((s.current_epoch : ℚ) / (horizon : ℚ))
  | none =>
    match s.n_steps_kl_warmup with
    | some horizon => min 1 ((s.global_step : ℚ) / (horizon : ℚ))
    | none => 1

/-! ### Minibatches, torch primitives, and the adversarial task -/

/-- Minibatch dictionary: expression matrix (cells times genes), per-cell
batch-covariate index, per-cell label index (keys `X_KEY`, `BATCH_KEY`,
`LABELS_KEY`). -/
structure Batch where
  X : List (List ℝ)
  batch_indices : List ℕ
  labels : List ℕ

/-- Loss record produced by a model forward pass (`scvi_loss`): total scalar
loss, per-cell reconstruction-loss vector, per-cell local-KL vector, global
scalar KL. -/
structure SCVILoss where
  loss : ℝ
  reconstruction_loss : List ℝ
  kl_local : List ℝ
  kl_global : ℝ

/-- Mean of a list of reals (torch `.mean()` over a 1-d tensor). -/
noncomputable def listMean (l : List ℝ) : ℝ := l.sum / (l.length : ℝ)

/-- Row of `torch.nn.LogSoftmax(dim=1)`: each entry becomes
`x - log (sum of exp over the row)`. -/
noncomputable def logSoftmax (row : List ℝ) : List ℝ :=
  row.map (fun x => x - Real.log ((row.map Real.exp).sum))

/-- Row of `one_hot(batch_index, n_classes)`: 1.0 at the true index, 0.0
elsewhere. -/
def one_hot (b n : ℕ) : List ℝ :=
  (List.range n).map (fun j => if j = b then 1 else 0)

/-- Fooling-branch target row of `loss_adversarial_classifier`: starting from
zeros, `masked_scatter_` writes `1/(n_classes - 1)` at every position where
the one-hot row is zero (the complement mask), leaving 0 at the true index. -/
noncomputable def foolingTarget (n b : ℕ) : List ℝ :=
  (one_hot b n).map (fun v => if v = 0 then 1 / ((n : ℝ) - 1) else 0)

/-- Scale mode of the adversarial loss: the literal string `"auto"` or a
fixed numeric scale. -/
inductive AdvScale where
  | auto : AdvScale
  | fixed : ℝ → AdvScale

/-- State of `AdvesarialTask` (source spelling) as read by its training step:
the base-task counters and warmup horizons, the model contract pieces it
touches (`n_batch`, forward pass, inference pass), the adversarial classifier
network (abstract logits function) together with the flag recording that it
is enabled (`is not False`), and the scale mode. -/
structure AdversarialTaskState where
  base : VAETaskState
  n_batch : ℕ
  forward : Batch → ℝ → (List (List ℝ)) × SCVILoss
  inference_z : Batch → List (List ℝ)
  classifier : List ℝ → List ℝ
  adversarial_classifier_enabled : Bool
  scale_adversarial_loss : AdvScale

/-- Value of the local variable `kappa` in `AdvesarialTask.training_step`:
`1 - kl_weight` in auto mode, otherwise the fixed scale. -/
noncomputable def kappaOf (st : AdversarialTaskState) : ℝ :=
  match st.scale_adversarial_loss with
  | AdvScale.auto => 1 - ((kl_weight st.base : ℚ) : ℝ)
  | AdvScale.fixed c => c

/-- `AdvesarialTask.loss_adversarial_classifier` for latent rows `z` and true
batch indices: log-softmax of classifier logits, a one-hot target when
`predict_true` is set (source parameter name predict_true_class), otherwise
the fooling target; the loss is the negated mean over cells of the summed
entrywise product. -/
noncomputable def loss_adversarial_classifier (st : AdversarialTaskState)
    (z : List (List ℝ)) (batch_index : List ℕ) (predict_true : Bool) : ℝ :=
  let cls_logits := (z.map st.classifier).map logSoftmax
  let cls_target := batch_index.map (fun b =>
    if predict_true then one_hot b st.n_batch else foolingTarget st.n_batch b)
  let l_soft := List.zipWith (List.zipWith (fun a b => a * b)) cls_logits cls_target
  let loss := -(listMean (l_soft.map List.sum))
  loss

/-- Step record returned by the adversarial task on optimizer 0 (the `loss`
key is read here, so it is part of the record). -/
structure AdvStepRecord where
  loss : ℝ
  reconstruction_loss_sum : ℝ
  kl_local_sum : ℝ
  kl_global : ℝ
  n_obs : ℕ

/-- Return value of `AdvesarialTask.training_step`: a full step record
(optimizer 0) or a bare scalar loss (optimizer 1). -/
inductive AdvStepResult where
  | record : AdvStepRecord → AdvStepResult
  | scalar : ℝ → AdvStepResult

/-- `AdvesarialTask.training_step`.  Minibatches smaller than 3 cells are
skipped.  On optimizer 0 the generative loss is computed with the current
`kl_weight`; when `kappa > 0` and the classifier is enabled, the statement
`loss += fool_loss * kappa` updates the loss tensor in place (torch `+=` is
an in-place tensor operation), so the tensor aliased by `scvi_loss.loss` that
is placed in the returned record carries the added adversarial term.  On
optimizer 1 the classifier is trained against detached latent codes with the
one-hot target. -/
noncomputable def adv_training_step (st : AdversarialTaskState) (batch : Batch)
    (optimizer_idx : ℕ) : Option AdvStepResult :=
  if batch.X.length < 3 then none
  else
    let kappa := kappaOf st
    let batch_tensor := batch.batch_indices
    if optimizer_idx = 0 then
      let fw := st.forward batch ((kl_weight st.base : ℚ) : ℝ)
      let z := fw.1
      let scvi_loss := fw.2
      let loss :=
        if 0 < kappa ∧ st.adversarial_classifier_enabled then
          scvi_loss.loss + loss_adversarial_classifier st z batch_tensor false * kappa
        else scvi_loss.loss
      some (AdvStepResult.record
        { loss := loss
        , reconstruction_loss_sum := scvi_loss.reconstruction_loss.sum
        , kl_local_sum := scvi_loss.kl_local.sum
        , kl_global := scvi_loss.kl_global
        , n_obs := scvi_loss.reconstruction_loss.length })
    else if optimizer_idx = 1 then
      let z := st.inference_z batch
      some (AdvStepResult.scalar
        (loss_adversarial_classifier st z batch_tensor true * kappa))
    else none

/-! ### Classifier task (`ClassifierTask`) -/

/-- Abstract classification-capable model: its `classify` capability maps the
expression matrix and the per-cell batch covariate to per-cell label logits. -/
structure ClassifyCapable where
  classify : List (List ℝ) → List ℕ → List (List ℝ)

/-- State of `ClassifierTask`: the model stored by its constructor, and the
`sampling_model` attribute that the training step actually reads (never
assigned inside the class; attached externally by the trainer before any
step runs). -/
structure ClassifierTaskState where
  model : ClassifyCapable
  sampling_model : ClassifyCapable

/-- `torch.nn.functional.cross_entropy` on a logits matrix and an integer
target vector: mean over rows of `log (sum of exp of the row) - row[target]`. -/
noncomputable def cross_entropy (input : List (List ℝ)) (target : List ℕ) : ℝ :=
  listMean (List.zipWith
    (fun row t => Real.log ((row.map Real.exp).sum) - row.getD t 0) input target)

/-- `ClassifierTask.training_step`: cross-entropy between
`sampling_model.classify(x, b)` and the flattened true label vector. -/
noncomputable def classifier_training_step (st : ClassifierTaskState)
    (batch : Batch) : ℝ :=
  cross_entropy (st.sampling_model.classify batch.X batch.batch_indices) batch.labels

/-! ### Posterior / evaluation unit (`posterior.py`) -/

/-- Sampling strategy chosen by the `Posterior` constructor: a fresh random
permutation per pass (`RandomSampler`), full sequential order
(`SequentialSampler`), or the explicit index subset in random order
(`SubsetRandomSampler`). -/
inductive SamplerSpec where
  | random : SamplerSpec
  | sequential : SamplerSpec
  | subsetRandom : List ℕ → SamplerSpec
deriving DecidableEq, Repr

/-- Error taxonomy of the constructor: the `ValueError` raised when shuffle
and an explicit index subset are both supplied. -/
inductive PosteriorError where
  | invalidConfiguration : String → PosteriorError
deriving DecidableEq, Repr

/-- Aggregate result of one `get_latent` pass over the bound data: latent
codes, batch covariates and labels concatenated in iteration order. -/
structure LatentData where
  latent : List (List ℝ)
  batch_indices : List ℕ
  labels : List ℕ

/-- Abstract trained-model handle held by a posterior: the only capability
the claims touch is the latent extraction pass over the bound data. -/
structure ModelHandle where
  sample_latent : LatentData

/-- Dataset capability surface read by the claims: the count of distinct
batch covariates. -/
structure GeneDataset where
  n_batches : ℕ
deriving DecidableEq, Repr

/-- State of a constructed `Posterior`: bound model, bound dataset, and the
sampler wired into its data loader. -/
structure PosteriorState where
  model : ModelHandle
  gene_dataset : GeneDataset
  sampler : SamplerSpec

/-- `Posterior.__init__`: raises `ValueError` when an index subset and
shuffle are both supplied, before constructing any sampler or data loader;
otherwise selects the sampler and builds the data loader around it. -/
def posterior_init (model : ModelHandle) (gene_dataset : GeneDataset)
    (shuffle : Bool) (indices : Option (List ℕ)) :
    Except PosteriorError PosteriorState :=
  if indices.isSome ∧ shuffle then
    Except.error (PosteriorError.invalidConfiguration
      "indices is mutually exclusive with shuffle")
  else
    let sampler :=
      match indices with
      | none => if shuffle then SamplerSpec.random else SamplerSpec.sequential
      | some idx => SamplerSpec.subsetRandom idx
    Except.ok { model := model, gene_dataset := gene_dataset, sampler := sampler }

/-- `Posterior.entropy_batch_mixing`: only when the bound dataset has exactly
2 distinct batch covariates does it run a latent pass and hand the codes and
batch indices to the free-standing scoring routine (`ebm`, a stochastic
subsample-and-knn score kept abstract); any other batch count falls off the
end of the method, returning `None`. -/
def posterior_entropy_batch_mixing (p : PosteriorState)
    (ebm : List (List ℝ) → List ℕ → ℝ) : Option ℝ :=
  if p.gene_dataset.n_batches = 2 then
    some (ebm p.model.sample_latent.latent p.model.sample_latent.batch_indices)
  else none

/-! ### Classification-accuracy tuple (`compute_accuracy_tuple`) -/

/-- Named tuple `Accuracy` with the source field order and names. -/
structure Accuracy where
  unweighted : ℚ
  weighted : ℚ
  worst : ℚ
  accuracy_classes : List ℚ
deriving DecidableEq, Repr

/-- Number of positions of `y` holding label `cl` (size of the mask
`idx = (y == cl)`). -/
def countEq (y : List ℕ) (cl : ℕ) : ℕ := y.countP (fun a => a = cl)

/-- Number of positions where both the true label and the prediction equal
`cl` (the matches counted by `np.mean(y[idx] == y_pred[idx])`). -/
def countCorrect (y y_pred : List ℕ) (cl : ℕ) : ℕ :=
  (y.zip y_pred).countP (fun p => p.1 = cl ∧ p.2 = cl)

/-- Class-prior probability `np.mean(y == cl)`. -/
def priorProb (y : List ℕ) (cl : ℕ) : ℚ := (countEq y cl : ℚ) / (y.length : ℚ)

/-- Per-class recall as the source computes it: the masked mean when the
class probability is truthy (nonzero), else the literal 0. -/
def recallOf (y y_pred : List ℕ) (cl : ℕ) : ℚ :=
  if priorProb y cl ≠ 0 then (countCorrect y y_pred cl : ℚ) / (countEq y cl : ℚ)
  else 0

/-- Minimum of a nonempty rational list (`np.min`); 0 on the empty list,
where numpy would raise. -/
def listMinQ : List ℚ → ℚ
  | [] => 0
  | a :: rest => rest.foldl min a

/-- Dot product `np.dot` of two equal-length rational vectors. -/
def dotProd (a b : List ℚ) : ℚ := (List.zipWith (fun x y => x * y) a b).sum

/-- Mean of a rational list (`np.mean`). -/
def listMeanQ (l : List ℚ) : ℚ := l.sum / (l.length : ℚ)

/-- `compute_accuracy_tuple` over flattened label vectors.  The loop runs
`cl` over `range(len(np.unique(y)))`; on an empty `y` the loop body never
executes and the name `accuracy_named_tuple` is unbound (`NameError`),
modelled by `none`. -/
def compute_accuracy_tuple (y y_pred : List ℕ) : Option Accuracy :=
  let n_labels := y.dedup.length
  if n_labels = 0 then none
  else
    let classes_probabilities := (List.range n_labels).map (priorProb y)
    let accuracy_classes := (List.range n_labels).map (recallOf y y_pred)
    some { unweighted := dotProd accuracy_classes classes_probabilities
         , weighted := listMeanQ accuracy_classes
         , worst := listMinQ accuracy_classes
         , accuracy_classes := accuracy_classes }

/-! ### Unsupervised clustering accuracy (`unsupervised_clustering_accuracy`) -/

/-- Single increment `reward_matrix[a, b] += 1` of the counting loop. -/
def bumpReward (R : ℕ → ℕ → ℕ) (a b : ℕ) : ℕ → ℕ → ℕ :=
  fun i j => if i = a ∧ j = b then R i j + 1 else R i j

/-- The counting loop `for y_pred_, y_ in zip(y_pred, y)` over an n-by-n
matrix, restricted to nonnegative ids: an id at or above n is an
`IndexError` (`none`).  This natural-number model agrees with numpy on every
nonnegative id; numpy's silent wrapping of negative ids is modelled
separately by `buildRewardWrap` over signed ids. -/
def buildReward (n : ℕ) : List (ℕ × ℕ) → (ℕ → ℕ → ℕ) → Option (ℕ → ℕ → ℕ)
  | [], R => some R
  | (a, b) :: rest, R =>
    if a < n ∧ b < n then buildReward n rest (bumpReward R a b) else none

/-- Sum of `f i x` over an index-value traversal of a list, starting at index
`i0`; `totalFrom f 0 ind` is `sum(f(i, j) for i, j in enumerate(ind))`. -/
def totalFrom (f : ℕ → ℕ → ℕ) : ℕ → List ℕ → ℕ
  | _, [] => 0
  | i0, x :: rest => f i0 x + totalFrom f (i0 + 1) rest

/-- `reward_matrix.max()` over the n-by-n entries (used only when n > 0). -/
def maxEntry (n : ℕ) (R : ℕ → ℕ → ℕ) : ℕ :=
  ((List.range n).map (fun i => ((List.range n).map (R i)).foldr max 0)).foldr max 0

/-- Modelled from the contract of the external assignment solver
(`sklearn linear_assignment`, the Hungarian algorithm): a minimum-total-cost
row-to-column assignment of an n-by-n cost matrix, represented as the list
sending row `i` to column `ind.get i`, realized here as a brute-force argmin
over all permutations of `range n` (`none` never occurs for the nonempty
permutation list). -/
def linear_assignment (n : ℕ) (cost : ℕ → ℕ → ℕ) : Option (List ℕ) :=
  ((List.range n).permutations).argmin (fun ind => totalFrom cost 0 ind)

/-- `unsupervised_clustering_accuracy`: assert equal lengths, count
co-occurrences of (predicted, true) pairs into an n-by-n reward matrix with
`n = len(np.unique(y))`, build `cost = reward.max() - reward` (on an empty
matrix `.max()` raises, modelled by `none`), solve the assignment, and return
the matched-pair fraction together with the assignment. -/
def unsupervised_clustering_accuracy (y y_pred : List ℕ) :
    Option (ℚ × List ℕ) :=
  if y_pred.length = y.length then
    let n := y.dedup.length
    match buildReward n (y_pred.zip y) (fun _ _ => 0) with
    | none => none
    | some R =>
      if n = 0 then none
      else
        let M := maxEntry n R
        match linear_assignment n (fun i j => M - R i j) with
        | none => none
        | some ind => some (((totalFrom R 0 ind : ℕ) : ℚ) / (y_pred.length : ℚ), ind)
  else none

/-- Co-occurrence count of the (predicted, true) pair `(i, j)`; the reward
matrix built by the counting loop holds exactly these counts. -/
def pairCount (y y_pred : List ℕ) (i j : ℕ) : ℕ :=
  (y_pred.zip y).count (i, j)

/-- Total matched-pair count of an assignment `ind` against the
co-occurrence counts of `y` and `y_pred`. -/
def assignmentScore (y y_pred : List ℕ) (ind : List ℕ) : ℕ :=
  totalFrom (pairCount y y_pred) 0 ind

/-- Numpy basic indexing of an axis of length n: an index in `[0, n)` is used
as is, an index in `[-n, -1]` silently wraps to `n + i`, and anything else is
an `IndexError` (`none`). -/
def wrapIdx (n : ℕ) (i : ℤ) : Option ℕ :=
  if 0 ≤ i ∧ i < (n : ℤ) then some i.toNat
  else if -(n : ℤ) ≤ i ∧ i < 0 then some (i + (n : ℤ)).toNat
  else none

/-- The counting loop over signed label ids, with numpy's full indexing
semantics: each component is wrapped by `wrapIdx` before the increment, so
negative ids in `[-n, -1]` are accepted silently and only ids outside
`[-n, n)` raise. -/
def buildRewardWrap (n : ℕ) : List (ℤ × ℤ) → (ℕ → ℕ → ℕ) → Option (ℕ → ℕ → ℕ)
  | [], R => some R
  | (a, b) :: rest, R =>
    match wrapIdx n a, wrapIdx n b with
    | some i, some j => buildRewardWrap n rest (bumpReward R i j)
    | _, _ => none

/-- `unsupervised_clustering_accuracy` over signed (Python int / numpy
int64) label vectors: identical to the natural-number model except that the
counting loop indexes the reward matrix through numpy's wrapping rule, which
is the behaviour of `reward_matrix[y_pred_, y_] += 1` on negative ids. -/
def unsupervised_clustering_accuracy_int (y y_pred : List ℤ) :
    Option (ℚ × List ℕ) :=
  if y_pred.length = y.length then
    let n := y.dedup.length
    match buildRewardWrap n (y_pred.zip y) (fun _ _ => 0) with
    | none => none
    | some R =>
      if n = 0 then none
      else
        let M := maxEntry n R
        match linear_assignment n (fun i j => M - R i j) with
        | none => none
        | some ind => some (((totalFrom R 0 ind : ℕ) : ℚ) / (y_pred.length : ℚ), ind)
  else none

/-- Concrete adversarial-task state used to instantiate the adversarial-task
theorems: 3 batch classes, a fixed adversarial scale of 1, enabled
classifier, and constant stub networks. -/
noncomputable def advStateW : AdversarialTaskState :=
  { base := ⟨0, 0, none, none⟩
  , n_batch := 3
  , forward := fun _ _ => ([[0]], ⟨0, [0, 0, 0], [0], 0⟩)
  , inference_z := fun _ => [[0]]
  , classifier := fun _ => [0, 0, 0]
  , adversarial_classifier_enabled := true
  , scale_adversarial_loss := AdvScale.fixed 1 }

/-- Concrete classifier-task state used to instantiate the classifier-task
theorem: a stub model producing one single-logit row. -/
noncomputable def clsStateW : ClassifierTaskState :=
  { model := ⟨fun _ _ => [[0]]⟩
  , sampling_model := ⟨fun _ _ => [[0]]⟩ }

/-! ## Helper lemmas -/

/-- Reading an entry of a mapped range at an in-range position. -/
theorem getD_map_range (h : ℕ → ℝ) (n j : ℕ) (hj : j < n) :
    (((List.range n).map h).getD j 0) = h j := by
  rw [List.getD_eq_getElem?_getD, List.getElem?_map, List.getElem?_range hj]
  rfl

/-- Reading an entry of a mapped list at an in-range position. -/
theorem getD_map_lt (f : ℝ → ℝ) (l : List ℝ) (t : ℕ) (ht : t < l.length) :
    ((l.map f).getD t 0) = f (l.getD t 0) := by
  rw [List.getD_eq_getElem?_getD, List.getD_eq_getElem?_getD, List.getElem?_map,
    List.getElem?_eq_getElem ht]
  rfl

/-- Summing the negations of a real list negates the sum. -/
theorem sum_map_neg_real (l : List ℝ) : (l.map (fun x => -x)).sum = -l.sum := by
  induction l with
  | nil => simp
  | cons a rest ih => simp [ih]; ring

/-- The mean of the negated list is the negated mean. -/
theorem listMean_neg (l : List ℝ) : listMean (l.map (fun x => -x)) = -(listMean l) := by
  simp [listMean, sum_map_neg_real, neg_div]

/-- A zipWith is the map of the paired combinator over the zip. -/
theorem zipWith_eq_map_zip {α β γ : Type _} (F : α → β → γ) :
    ∀ (l : List α) (l' : List β),
      List.zipWith F l l' = (l.zip l').map (fun p => F p.1 p.2)
  | [], _ => by simp
  | _ :: _, [] => by simp
  | a :: l, b :: l' => by
    simp only [List.zipWith_cons_cons, List.zip_cons_cons, List.map_cons]
    rw [zipWith_eq_map_zip F l l']

/-- Congruence for zipWith from pointwise agreement on the zipped pairs. -/
theorem zipWith_congr_zip {α β γ : Type _} (f g : α → β → γ) :
    ∀ (l : List α) (l' : List β),
      (∀ p ∈ l.zip l', f p.1 p.2 = g p.1 p.2) →
        List.zipWith f l l' = List.zipWith g l l'
  | [], _, _ => by simp
  | _ :: _, [], _ => by simp
  | a :: l, b :: l', h => by
    simp only [List.zipWith_cons_cons, List.cons.injEq]
    exact ⟨h (a, b) (by simp), zipWith_congr_zip f g l l'
      (fun p hp => h p (List.mem_cons_of_mem _ hp))⟩

/-- Unfolding of the epoch-end accumulation loop into the four closed sums. -/
theorem foldl_epochAccum (l : List StepRecord) (a b c : ℚ) (d : ℕ) :
    l.foldl epochAccum (a, b, c, d) =
      (a + (l.map StepRecord.reconstruction_loss_sum).sum
         + (l.map StepRecord.kl_local_sum).sum,
       b + (l.map StepRecord.reconstruction_loss_sum).sum,
       c + (l.map StepRecord.kl_local_sum).sum,
       d + (l.map StepRecord.n_obs).sum) := by
  induction l generalizing a b c d with
  | nil => simp
  | cons t rest ih =>
    simp only [List.foldl_cons, epochAccum, ih, List.map_cons, List.sum_cons]
    refine Prod.ext ?_ (Prod.ext ?_ (Prod.ext ?_ ?_)) <;> simp <;> ring

/-- Dot product of two maps over the same index list is the sum of the
pointwise products. -/
theorem dotProd_map (f g : ℕ → ℚ) (l : List ℕ) :
    dotProd (l.map f) (l.map g) = (l.map (fun x => f x * g x)).sum := by
  induction l with
  | nil => rfl
  | cons x rest ih => simp only [dotProd, List.map_cons, List.zipWith_cons_cons,
      List.sum_cons] at *; rw [ih]

/-- The running minimum of a fold is bounded by its seed. -/
theorem foldl_min_le_init (rest : List ℚ) (a : ℚ) : rest.foldl min a ≤ a := by
  induction rest generalizing a with
  | nil => exact le_refl a
  | cons b rest ih => exact le_trans (ih (min a b)) (min_le_left a b)

/-- The running minimum of a fold is bounded by every list element. -/
theorem foldl_min_le_mem {rest : List ℚ} {r : ℚ} (hr : r ∈ rest) (a : ℚ) :
    rest.foldl min a ≤ r := by
  induction rest generalizing a with
  | nil => cases hr
  | cons b rest ih =>
    rcases List.mem_cons.1 hr with h | h
    · subst h
      exact le_trans (foldl_min_le_init rest (min a r)) (min_le_right a r)
    · exact ih h (min a b)

/-- The running minimum of a fold is attained by the seed or a list element. -/
theorem foldl_min_mem (rest : List ℚ) (a : ℚ) : rest.foldl min a ∈ a :: rest := by
  induction rest generalizing a with
  | nil => exact List.mem_singleton.2 rfl
  | cons b rest ih =>
    have h := ih (min a b)
    rcases List.mem_cons.1 h with h0 | h0
    · rcases min_choice a b with hm | hm
      · exact List.mem_cons.2 (Or.inl (h0.trans hm))
      · exact List.mem_cons.2 (Or.inr (List.mem_cons.2 (Or.inl (h0.trans hm))))
    · exact List.mem_cons.2 (Or.inr (List.mem_cons.2 (Or.inr h0)))

/-- The source minimum is a member of any nonempty list. -/
theorem listMinQ_mem {l : List ℚ} (h : l ≠ []) : listMinQ l ∈ l := by
  cases l with
  | nil => exact absurd rfl h
  | cons a rest => exact foldl_min_mem rest a

/-- The source minimum is a lower bound of the list. -/
theorem listMinQ_le {l : List ℚ} {r : ℚ} (hr : r ∈ l) : listMinQ l ≤ r := by
  cases l with
  | nil => cases hr
  | cons a rest =>
    rcases List.mem_cons.1 hr with h | h
    · exact h ▸ foldl_min_le_init rest a
    · exact foldl_min_le_mem h a

/-- Pointwise content of the reward matrix built by the counting loop when
every pair is in bounds: the start matrix plus the pair count. -/
theorem buildReward_eq (n : ℕ) :
    ∀ (pairs : List (ℕ × ℕ)) (R0 : ℕ → ℕ → ℕ),
      (∀ p ∈ pairs, p.1 < n ∧ p.2 < n) →
      buildReward n pairs R0 = some (fun i j => R0 i j + pairs.count (i, j))
  | [], R0, _ => by
    refine congrArg some (funext fun i => funext fun j => ?_)
    simp
  | (a, b) :: rest, R0, h => by
    have hab := h (a, b) (by simp)
    simp only [buildReward, if_pos hab]
    rw [buildReward_eq n rest (bumpReward R0 a b)
      (fun p hp => h p (List.mem_cons_of_mem _ hp))]
    refine congrArg some (funext fun i => funext fun j => ?_)
    simp only [bumpReward, List.count_cons]
    by_cases hij : i = a ∧ j = b
    · obtain ⟨hi, hj⟩ := hij
      subst hi
      subst hj
      simp only [and_self, if_true, beq_self_eq_true]
      omega
    · have hne2 : ¬ (((a, b) : ℕ × ℕ) == (i, j)) = true := by
        simp only [beq_iff_eq, Prod.mk.injEq, not_and]
        intro h1 h2
        exact absurd ⟨h1.symm, h2.symm⟩ hij
      simp only [if_neg hij, if_neg hne2]
      omega

/-- The counting loop fails on any pair outside the n-by-n bounds. -/
theorem buildReward_none (n : ℕ) :
    ∀ (pairs : List (ℕ × ℕ)) (R0 : ℕ → ℕ → ℕ),
      (∃ p ∈ pairs, ¬(p.1 < n ∧ p.2 < n)) → buildReward n pairs R0 = none
  | [], _, h => by simp at h
  | (a, b) :: rest, R0, h => by
    by_cases hab : a < n ∧ b < n
    · simp only [buildReward, if_pos hab]
      rcases h with ⟨p, hp, hv⟩
      rcases List.mem_cons.1 hp with h0 | h0
      · subst h0
        exact absurd hab hv
      · exact buildReward_none n rest _ ⟨p, h0, hv⟩
    · simp only [buildReward, if_neg hab]

/-- Indexed traversal of a pointwise sum splits into two traversals. -/
theorem totalFrom_add (f g : ℕ → ℕ → ℕ) :
    ∀ (σ : List ℕ) (i : ℕ),
      totalFrom (fun a b => f a b + g a b) i σ = totalFrom f i σ + totalFrom g i σ
  | [], _ => rfl
  | x :: rest, i => by
    simp only [totalFrom]
    rw [totalFrom_add f g rest (i + 1)]
    omega

/-- Congruence of the indexed traversal from agreement at traversed points. -/
theorem totalFrom_congr_on (f g : ℕ → ℕ → ℕ) :
    ∀ (σ : List ℕ) (i : ℕ),
      (∀ k x, σ[k]? = some x → f (i + k) x = g (i + k) x) →
      totalFrom f i σ = totalFrom g i σ
  | [], _, _ => rfl
  | x :: rest, i, h => by
    simp only [totalFrom]
    have h0 : f i x = g i x := by
      have := h 0 x (by simp)
      simpa using this
    rw [h0, totalFrom_congr_on f g rest (i + 1) (fun k xx hk => by
      have hh := h (k + 1) xx (by simpa using hk)
      have harr : i + (k + 1) = i + 1 + k := by omega
      rw [harr] at hh
      exact hh)]

/-- Traversal of a matrix plus the traversal of its complement against an
entrywise upper bound M sums to length times M. -/
theorem totalFrom_add_compl (R : ℕ → ℕ → ℕ) (M : ℕ) :
    ∀ (σ : List ℕ) (i : ℕ),
      (∀ k x, σ[k]? = some x → R (i + k) x ≤ M) →
      totalFrom R i σ + totalFrom (fun a b => M - R a b) i σ = σ.length * M
  | [], _, _ => by simp [totalFrom]
  | x :: rest, i, h => by
    simp only [totalFrom, List.length_cons]
    have h0 : R i x ≤ M := by
      have := h 0 x (by simp)
      simpa using this
    have hrec := totalFrom_add_compl R M rest (i + 1) (fun k xx hk => by
      have hh := h (k + 1) xx (by simpa using hk)
      have harr : i + (k + 1) = i + 1 + k := by omega
      rw [harr] at hh
      exact hh)
    have hm : (rest.length + 1) * M = rest.length * M + M := by ring
    omega

/-- Every member of a Nat list is bounded by its max fold. -/
theorem le_foldr_max (l : List ℕ) (x : ℕ) (h : x ∈ l) : x ≤ l.foldr max 0 := by
  induction l with
  | nil => cases h
  | cons a rest ih =>
    simp only [List.foldr_cons]
    rcases List.mem_cons.1 h with h0 | h0
    · subst h0
      exact le_max_left _ _
    · exact le_trans (ih h0) (le_max_right _ _)

/-- Every in-bounds entry is at most the matrix maximum. -/
theorem maxEntry_ge (n : ℕ) (R : ℕ → ℕ → ℕ) {i j : ℕ} (hi : i < n) (hj : j < n) :
    R i j ≤ maxEntry n R := by
  have h1 : R i j ≤ ((List.range n).map (R i)).foldr max 0 :=
    le_foldr_max _ _ (List.mem_map.2 ⟨j, List.mem_range.2 hj, rfl⟩)
  exact le_trans h1 (le_foldr_max _ _ (List.mem_map.2 ⟨i, List.mem_range.2 hi, rfl⟩))

/-- Traversing the indicator of a single pair contributes nothing once the
running index has passed the pair's row. -/
theorem totalFrom_indicator_zero (p : ℕ × ℕ) :
    ∀ (σ : List ℕ) (i : ℕ), p.1 < i →
      totalFrom (fun a b => if (a, b) = p then 1 else 0) i σ = 0
  | [], _, _ => rfl
  | x :: rest, i, h => by
    simp only [totalFrom]
    rw [if_neg (fun he => absurd h (by rw [← he]; exact lt_irrefl i)),
      totalFrom_indicator_zero p rest (i + 1) (Nat.lt_succ_of_lt h)]

/-- Traversing the indicator of a single pair counts at most one hit, since
the traversal visits each row index once. -/
theorem totalFrom_indicator_le_one (p : ℕ × ℕ) :
    ∀ (σ : List ℕ) (i : ℕ),
      totalFrom (fun a b => if (a, b) = p then 1 else 0) i σ ≤ 1
  | [], _ => Nat.zero_le 1
  | x :: rest, i => by
    simp only [totalFrom]
    by_cases hp : ((i, x) : ℕ × ℕ) = p
    · rw [if_pos hp, totalFrom_indicator_zero p rest (i + 1)
        (by rw [← hp]; exact Nat.lt_succ_self i)]
    · rw [if_neg hp]
      simpa using totalFrom_indicator_le_one p rest (i + 1)

/-- Head decomposition of a pair count, phrased with a propositional
indicator. -/
theorem count_cons_pair (q : ℕ × ℕ) (rest : List (ℕ × ℕ)) (i j : ℕ) :
    List.count ((i, j) : ℕ × ℕ) (q :: rest) =
      rest.count (i, j) + (if ((i, j) : ℕ × ℕ) = q then 1 else 0) := by
  by_cases h : ((i, j) : ℕ × ℕ) = q
  · simp [List.count_cons, beq_iff_eq, h]
  · have h2 : ¬ q = (i, j) := fun he => h he.symm
    simp [List.count_cons, beq_iff_eq, h, h2]

/-- Traversal of the all-zero matrix. -/
theorem totalFrom_zero : ∀ (σ : List ℕ) (i : ℕ),
    totalFrom (fun _ _ => 0) i σ = 0
  | [], _ => rfl
  | x :: rest, i => by
    simp only [totalFrom]
    rw [totalFrom_zero rest (i + 1)]

/-- An assignment traversal of co-occurrence counts never exceeds the number
of counted pairs (distinct rows pick up disjoint count pools). -/
theorem totalFrom_count_le (σ : List ℕ) :
    ∀ (pairs : List (ℕ × ℕ)),
      totalFrom (fun i j => pairs.count (i, j)) 0 σ ≤ pairs.length
  | [] => by
    have hf : (fun i j => List.count ((i, j) : ℕ × ℕ) []) = (fun _ _ => (0 : ℕ)) := by
      funext i j
      simp
    rw [hf, totalFrom_zero]
    exact Nat.zero_le _
  | q :: rest => by
    have hf : (fun i j => List.count ((i, j) : ℕ × ℕ) (q :: rest)) =
        (fun i j => rest.count (i, j) + (if ((i, j) : ℕ × ℕ) = q then 1 else 0)) := by
      funext i j
      exact count_cons_pair q rest i j
    rw [hf, totalFrom_add (fun a b => rest.count (a, b))
      (fun a b => if ((a, b) : ℕ × ℕ) = q then 1 else 0) σ 0]
    have h1 := totalFrom_count_le σ rest
    have h2 := totalFrom_indicator_le_one q σ 0
    simp only [List.length_cons]
    omega

/-- Counting a pair value in a mapped list counts preimages. -/
theorem count_map_eq_countP (g : ℕ → ℕ × ℕ)
    (l : List ℕ) (b : ℕ × ℕ) :
    (l.map g).count b = l.countP (fun a => g a = b) := by
  induction l with
  | nil => rfl
  | cons x rest ih =>
    simp only [List.map_cons, List.count_cons, List.countP_cons, ih]
    by_cases h : g x = b
    · simp [h]
    · simp [h, beq_iff_eq]

/-- Counting via the propositional equality predicate. -/
theorem countP_eq_count (l : List ℕ) (x : ℕ) :
    l.countP (fun c => c = x) = l.count x := by
  rw [List.count_eq_countP]
  exact List.countP_congr (fun c _ => by simp)

/-- Summing the indicator of one value over a list counts that value. -/
theorem sum_indicator_count (l : List ℕ) (b : ℕ) :
    (l.map (fun v => if b = v then 1 else 0)).sum = l.count b := by
  induction l with
  | nil => rfl
  | cons x rest ih =>
    simp only [List.map_cons, List.sum_cons, List.count_cons, ih]
    by_cases h : b = x
    · subst h
      simp only [if_pos rfl, beq_self_eq_true, if_true]
      omega
    · have h2 : ¬ (x == b) = true := by
        simp only [beq_iff_eq]
        exact fun he => h he.symm
      simp only [if_neg h, if_neg h2]
      omega

/-- Summing the per-value counts over the full value range recovers the list
length. -/
theorem sum_count_range (n : ℕ) (y : List ℕ) (hb : ∀ b ∈ y, b < n) :
    ((List.range n).map (fun v => y.count v)).sum = y.length := by
  induction y with
  | nil => simp
  | cons b rest ih =>
    have hbn : b < n := hb b (by simp)
    have hrest : ∀ x ∈ rest, x < n := fun x hx => hb x (List.mem_cons_of_mem _ hx)
    have hfn : (fun v => List.count v (b :: rest)) =
        (fun v => rest.count v + (if b = v then 1 else 0)) := by
      funext v
      rw [List.count_cons]
      by_cases h : b = v
      · simp [h, beq_iff_eq]
      · have h2 : ¬ (b == v) = true := by
          simp only [beq_iff_eq]
          exact h
        simp [if_neg h, if_neg h2]
    rw [hfn, List.sum_map_add, ih hrest, sum_indicator_count (List.range n) b,
      List.count_eq_one_of_mem (List.nodup_range n) (List.mem_range.2 hbn)]
    simp

/-- Traversal of a matrix that only depends on the column is the sum over the
assigned columns. -/
theorem totalFrom_snd (h : ℕ → ℕ) :
    ∀ (σ : List ℕ) (i : ℕ), totalFrom (fun _ b => h b) i σ = (σ.map h).sum
  | [], _ => rfl
  | x :: rest, i => by
    simp only [totalFrom, List.map_cons, List.sum_cons]
    rw [totalFrom_snd h rest (i + 1)]

/-! ## Claim theorems -/

/-- C1, counterexample: on the spec's own two-record example the aggregation
logs ELBO `(10 + 2 + 20 + 4 + 1)/10 = 3.7`, not the claimed
`(10 + 2 + 20 + 4)/10 + 1 = 4.6`: the last record's global KL is added to the
accumulated sum before the division by the total observation count, so the
reported ELBO is not the claimed normalized-sum-plus-unnormalized-global-KL. -/
theorem training_epoch_end_elbo_counterexample :
    training_epoch_end [⟨10, 2, 1, 5⟩, ⟨20, 4, 1, 5⟩] =
      some { elbo := 37/10, reconstruction_loss := 3, kl_local := 3/5, kl_global := 1 }
    ∧ ¬ ((37 : ℚ)/10 = (10 + 2 + 20 + 4)/10 + 1) := by
  constructor
  · simp only [training_epoch_end, List.getLast?_cons_cons, List.getLast?_singleton,
      foldl_epochAccum, List.map_cons, List.map_nil, List.sum_cons, List.sum_nil]
    norm_num
  · norm_num

/-- C1, amended: for every nonempty list of step records, training and
validation epoch-end aggregation both report
ELBO = (sum of reconstruction sums + sum of local-KL sums + last record's
global KL) / total observations — the global-KL term is normalized together
with the rest — while the reconstruction metric is the reconstruction sum
over total observations, the kl_local metric is the local-KL sum over total
observations, and the kl_global metric is the last record's global KL
unnormalized. -/
theorem epoch_end_metrics (outputs : List StepRecord) (h : outputs ≠ []) :
    ∃ last, outputs.getLast? = some last ∧
      training_epoch_end outputs = some
        { elbo := ((outputs.map StepRecord.reconstruction_loss_sum).sum
                    + (outputs.map StepRecord.kl_local_sum).sum + last.kl_global)
                  / ((outputs.map StepRecord.n_obs).sum : ℚ)
        , reconstruction_loss := (outputs.map StepRecord.reconstruction_loss_sum).sum
                  / ((outputs.map StepRecord.n_obs).sum : ℚ)
        , kl_local := (outputs.map StepRecord.kl_local_sum).sum
                  / ((outputs.map StepRecord.n_obs).sum : ℚ)
        , kl_global := last.kl_global }
      ∧ validation_epoch_end outputs = training_epoch_end outputs := by
  obtain ⟨last, hlast⟩ := Option.isSome_iff_exists.1 (List.getLast?_isSome.2 h)
  refine ⟨last, hlast, ?_, ?_⟩
  · simp only [training_epoch_end, hlast, foldl_epochAccum, zero_add]
  · simp only [training_epoch_end, validation_epoch_end]

/-- C1 witness: the amended aggregation evaluated on the spec's two-record
example. -/
theorem epoch_end_metrics_witness :
    ∃ last, ([⟨10, 2, 1, 5⟩, ⟨20, 4, 1, 5⟩] : List StepRecord).getLast? = some last ∧
      training_epoch_end [⟨10, 2, 1, 5⟩, ⟨20, 4, 1, 5⟩] = some
        { elbo := ((([⟨10, 2, 1, 5⟩, ⟨20, 4, 1, 5⟩] : List StepRecord).map
                      StepRecord.reconstruction_loss_sum).sum
                    + (([⟨10, 2, 1, 5⟩, ⟨20, 4, 1, 5⟩] : List StepRecord).map
                      StepRecord.kl_local_sum).sum + last.kl_global)
                  / ((([⟨10, 2, 1, 5⟩, ⟨20, 4, 1, 5⟩] : List StepRecord).map
                      StepRecord.n_obs).sum : ℚ)
        , reconstruction_loss := (([⟨10, 2, 1, 5⟩, ⟨20, 4, 1, 5⟩] : List StepRecord).map
                      StepRecord.reconstruction_loss_sum).sum
                  / ((([⟨10, 2, 1, 5⟩, ⟨20, 4, 1, 5⟩] : List StepRecord).map
                      StepRecord.n_obs).sum : ℚ)
        , kl_local := (([⟨10, 2, 1, 5⟩, ⟨20, 4, 1, 5⟩] : List StepRecord).map
                      StepRecord.kl_local_sum).sum
                  / ((([⟨10, 2, 1, 5⟩, ⟨20, 4, 1, 5⟩] : List StepRecord).map
                      StepRecord.n_obs).sum : ℚ)
        , kl_global := last.kl_global }
      ∧ validation_epoch_end [⟨10, 2, 1, 5⟩, ⟨20, 4, 1, 5⟩] =
          training_epoch_end [⟨10, 2, 1, 5⟩, ⟨20, 4, 1, 5⟩] :=
  epoch_end_metrics [⟨10, 2, 1, 5⟩, ⟨20, 4, 1, 5⟩] (by decide)

/-- C4: the derived `kl_weight` is `min 1 (epoch/horizon)` whenever the
epoch-based horizon is configured (regardless of the step-based one), else
`min 1 (step/horizon)` when only the step horizon is configured, else 1; it
never exceeds 1; with epoch horizon 400 it is 0 at epoch 0, 1/2 at epoch 200
(even with a competing step horizon), 1 at epoch 400, and stays 1 at 800. -/
theorem kl_weight_spec (s : VAETaskState) :
    (∀ h, s.n_epochs_kl_warmup = some h →
        kl_weight s = min 1 ((s.current_epoch : ℚ) / (h : ℚ)))
    ∧ (s.n_epochs_kl_warmup = none → ∀ h, s.n_steps_kl_warmup = some h →
        kl_weight s = min 1 ((s.global_step : ℚ) / (h : ℚ)))
    ∧ (s.n_epochs_kl_warmup = none → s.n_steps_kl_warmup = none → kl_weight s = 1)
    ∧ kl_weight s ≤ 1
    ∧ (kl_weight ⟨0, 0, some 400, some 5⟩ = 0
       ∧ kl_weight ⟨200, 3, some 400, some 5⟩ = 1/2
       ∧ kl_weight ⟨400, 0, some 400, none⟩ = 1
       ∧ kl_weight ⟨800, 0, some 400, none⟩ = 1) := by
  obtain ⟨e, g, oe, os⟩ := s
  refine ⟨?_, ?_, ?_, ?_, by norm_num [kl_weight, min_def]⟩
  · intro h hh
    cases oe with
    | none => cases hh
    | some v => cases hh; rfl
  · intro he h hh
    cases oe with
    | none =>
      cases os with
      | none => cases hh
      | some v => cases hh; rfl
    | some v => cases he
  · intro he hs
    cases oe with
    | none =>
      cases os with
      | none => rfl
      | some v => cases hs
    | some v => cases he
  · cases oe with
    | none =>
      cases os with
      | none => exact le_refl 1
      | some v => exact min_le_left _ _
    | some v => exact min_le_left _ _

/-- C4 witness: the epoch-horizon branch at epoch 200, horizon 400 (with a
competing step horizon present). -/
theorem kl_weight_spec_witness :
    kl_weight ⟨200, 3, some 400, some 5⟩ =
      min 1 (((200 : ℕ) : ℚ) / ((400 : ℕ) : ℚ)) :=
  (kl_weight_spec ⟨200, 3, some 400, some 5⟩).1 400 rfl

/-- C6: constructing a posterior with a non-empty explicit index subset and
shuffle together fails with the InvalidConfiguration condition (no posterior
state, hence no data loader, is ever built), while construction with only an
index subset, only shuffle, or neither succeeds with the corresponding
sampler. -/
theorem posterior_init_spec (model : ModelHandle) (ds : GeneDataset) :
    (∀ idx : List ℕ, idx ≠ [] →
        posterior_init model ds true (some idx) =
          Except.error (PosteriorError.invalidConfiguration
            "indices is mutually exclusive with shuffle"))
    ∧ (∀ idx : List ℕ, posterior_init model ds false (some idx) =
        Except.ok { model := model, gene_dataset := ds
                  , sampler := SamplerSpec.subsetRandom idx })
    ∧ posterior_init model ds true none =
        Except.ok { model := model, gene_dataset := ds
                  , sampler := SamplerSpec.random }
    ∧ posterior_init model ds false none =
        Except.ok { model := model, gene_dataset := ds
                  , sampler := SamplerSpec.sequential } :=
  ⟨fun _ _ => rfl, fun _ => rfl, rfl, rfl⟩

/-- C6 witness: the mutually-exclusive combination rejected on a concrete
two-element index subset. -/
theorem posterior_init_spec_witness :
    posterior_init ⟨⟨[], [], []⟩⟩ ⟨2⟩ true (some [0, 1]) =
      Except.error (PosteriorError.invalidConfiguration
        "indices is mutually exclusive with shuffle") :=
  (posterior_init_spec ⟨⟨[], [], []⟩⟩ ⟨2⟩).1 [0, 1] (by decide)

/-- C7: the entropy-batch-mixing operation yields no result whenever the
bound dataset does not have exactly 2 distinct batch covariates (in
particular for 3) — it neither raises nor produces a numeric placeholder —
and yields the numeric batch-mixing score of the latent pass when the count
is exactly 2. -/
theorem posterior_entropy_batch_mixing_spec (p : PosteriorState)
    (ebm : List (List ℝ) → List ℕ → ℝ) :
    (p.gene_dataset.n_batches = 3 → posterior_entropy_batch_mixing p ebm = none)
    ∧ (p.gene_dataset.n_batches ≠ 2 → posterior_entropy_batch_mixing p ebm = none)
    ∧ (p.gene_dataset.n_batches = 2 → posterior_entropy_batch_mixing p ebm =
        some (ebm p.model.sample_latent.latent p.model.sample_latent.batch_indices)) := by
  refine ⟨?_, ?_, ?_⟩ <;> intro h <;> simp [posterior_entropy_batch_mixing, h]

/-- C7 witness: a posterior bound to a dataset with 3 distinct batch
covariates yields no result. -/
theorem posterior_entropy_batch_mixing_witness :
    posterior_entropy_batch_mixing
      ⟨⟨⟨[], [], []⟩⟩, ⟨3⟩, SamplerSpec.sequential⟩ (fun _ _ => 0) = none :=
  (posterior_entropy_batch_mixing_spec
    ⟨⟨⟨[], [], []⟩⟩, ⟨3⟩, SamplerSpec.sequential⟩ (fun _ _ => 0)).1 rfl

/-- C8: for equal-length label vectors over classes 0..n-1, the accuracy
tuple holds the per-class recall vector (an empty class contributing 0), its
`unweighted` field is the dot product of recalls with class priors, its
`weighted` field is the plain mean of recalls, and its `worst` field is the
minimum recall; on true labels [0,0,0,1,1] against predictions [0,0,1,1,1]
the fields are 4/5, 5/6 and 2/3 with recall vector [2/3, 1]. -/
theorem compute_accuracy_tuple_spec (y y_pred : List ℕ) (hne : y ≠ [])
    (hlen : y_pred.length = y.length) :
    ∃ acc, compute_accuracy_tuple y y_pred = some acc
      ∧ acc.accuracy_classes = (List.range y.dedup.length).map (recallOf y y_pred)
      ∧ (∀ cl, recallOf y y_pred cl =
          if countEq y cl = 0 then 0
          else (countCorrect y y_pred cl : ℚ) / (countEq y cl : ℚ))
      ∧ acc.unweighted = ((List.range y.dedup.length).map
          (fun cl => recallOf y y_pred cl * priorProb y cl)).sum
      ∧ acc.weighted = acc.accuracy_classes.sum / (y.dedup.length : ℚ)
      ∧ acc.worst ∈ acc.accuracy_classes
      ∧ (∀ r ∈ acc.accuracy_classes, acc.worst ≤ r)
      ∧ compute_accuracy_tuple [0, 0, 0, 1, 1] [0, 0, 1, 1, 1] =
          some ⟨4/5, 5/6, 2/3, [2/3, 1]⟩ := by
  have hn : y.dedup.length ≠ 0 := by
    simpa [List.length_eq_zero, List.dedup_eq_nil] using hne
  have hmain : compute_accuracy_tuple y y_pred = some
      { unweighted := dotProd ((List.range y.dedup.length).map (recallOf y y_pred))
          ((List.range y.dedup.length).map (priorProb y))
      , weighted := listMeanQ ((List.range y.dedup.length).map (recallOf y y_pred))
      , worst := listMinQ ((List.range y.dedup.length).map (recallOf y y_pred))
      , accuracy_classes := (List.range y.dedup.length).map (recallOf y y_pred) } := by
    simp only [compute_accuracy_tuple, if_neg hn]
  refine ⟨_, hmain, rfl, ?_, ?_, ?_, ?_, ?_, ?_⟩
  · intro cl
    by_cases hc : countEq y cl = 0
    · simp [recallOf, priorProb, hc]
    · have hl0 : (y.length : ℚ) ≠ 0 :=
        Nat.cast_ne_zero.2 (List.length_pos.2 hne).ne'
      have hp : priorProb y cl ≠ 0 := by
        simp [priorProb, div_eq_zero_iff, hc, hl0]
      simp [recallOf, hp, hc]
  · exact dotProd_map (recallOf y y_pred) (priorProb y) (List.range y.dedup.length)
  · simp [listMeanQ]
  · exact listMinQ_mem (by simp [hn])
  · exact fun r hr => listMinQ_le hr
  · have hded : ([0, 0, 0, 1, 1] : List ℕ).dedup = [0, 1] := by decide
    have hrg : List.range 2 = [0, 1] := by decide
    have hc0 : countEq [0, 0, 0, 1, 1] 0 = 3 := by decide
    have hc1 : countEq [0, 0, 0, 1, 1] 1 = 2 := by decide
    have hk0 : countCorrect [0, 0, 0, 1, 1] [0, 0, 1, 1, 1] 0 = 2 := by decide
    have hk1 : countCorrect [0, 0, 0, 1, 1] [0, 0, 1, 1, 1] 1 = 2 := by decide
    have hp0 : priorProb [0, 0, 0, 1, 1] 0 = 3/5 := by
      simp only [priorProb, hc0]; norm_num
    have hp1 : priorProb [0, 0, 0, 1, 1] 1 = 2/5 := by
      simp only [priorProb, hc1]; norm_num
    have hr0 : recallOf [0, 0, 0, 1, 1] [0, 0, 1, 1, 1] 0 = 2/3 := by
      norm_num [recallOf, hp0, hk0, hc0]
    have hr1 : recallOf [0, 0, 0, 1, 1] [0, 0, 1, 1, 1] 1 = 1 := by
      norm_num [recallOf, hp1, hk1, hc1]
    simp only [compute_accuracy_tuple, hded, List.length_cons, List.length_nil]
    norm_num [hrg, hr0, hr1, hp0, hp1, dotProd, listMeanQ, listMinQ, min_def]

/-- C8 witness: the tuple properties instantiated on the spec's literal
five-cell example. -/
theorem compute_accuracy_tuple_spec_witness :
    ∃ acc, compute_accuracy_tuple [0, 0, 0, 1, 1] [0, 0, 1, 1, 1] = some acc
      ∧ acc.accuracy_classes = (List.range ([0, 0, 0, 1, 1] : List ℕ).dedup.length).map
          (recallOf [0, 0, 0, 1, 1] [0, 0, 1, 1, 1])
      ∧ (∀ cl, recallOf [0, 0, 0, 1, 1] [0, 0, 1, 1, 1] cl =
          if countEq [0, 0, 0, 1, 1] cl = 0 then 0
          else (countCorrect [0, 0, 0, 1, 1] [0, 0, 1, 1, 1] cl : ℚ)
            / (countEq [0, 0, 0, 1, 1] cl : ℚ))
      ∧ acc.unweighted = ((List.range ([0, 0, 0, 1, 1] : List ℕ).dedup.length).map
          (fun cl => recallOf [0, 0, 0, 1, 1] [0, 0, 1, 1, 1] cl
            * priorProb [0, 0, 0, 1, 1] cl)).sum
      ∧ acc.weighted = acc.accuracy_classes.sum
          / (([0, 0, 0, 1, 1] : List ℕ).dedup.length : ℚ)
      ∧ acc.worst ∈ acc.accuracy_classes
      ∧ (∀ r ∈ acc.accuracy_classes, acc.worst ≤ r)
      ∧ compute_accuracy_tuple [0, 0, 0, 1, 1] [0, 0, 1, 1, 1] =
          some ⟨4/5, 5/6, 2/3, [2/3, 1]⟩ :=
  compute_accuracy_tuple_spec [0, 0, 0, 1, 1] [0, 0, 1, 1, 1] (by decide) (by decide)

/-- C5: with at least 2 batch classes, the fooling target row carries 0 at
the cell's true batch index and uniform mass 1/(n_classes - 1) at every
other index; the adversarial loss with the fooling flag equals the negated
mean over cells of the summed products of target and log-softmax logits; for
3 classes and true index 0 the target is [0, 1/2, 1/2]. -/
theorem loss_adversarial_fooling_spec (st : AdversarialTaskState)
    (z : List (List ℝ)) (batch_index : List ℕ) (hn : 2 ≤ st.n_batch) :
    (∀ b, b < st.n_batch → ∀ j, j < st.n_batch →
        (foolingTarget st.n_batch b).getD j 0 =
          if j = b then 0 else 1 / ((st.n_batch : ℝ) - 1))
    ∧ loss_adversarial_classifier st z batch_index false =
        -(listMean ((z.zip batch_index).map (fun p =>
            (List.zipWith (fun t lg => t * lg)
              (foolingTarget st.n_batch p.2)
              (logSoftmax (st.classifier p.1))).sum)))
    ∧ foolingTarget 3 0 = [0, 1/2, 1/2] := by
  refine ⟨?_, ?_, ?_⟩
  · intro b hb j hj
    simp only [foolingTarget, one_hot, List.map_map]
    rw [getD_map_range _ _ _ hj]
    by_cases hjb : j = b
    · simp [hjb, Function.comp]
    · simp [hjb, Function.comp]
  · simp only [loss_adversarial_classifier, Bool.false_eq_true, if_false,
      List.map_map, List.zipWith_map, List.map_zipWith]
    rw [zipWith_eq_map_zip]
    have hcong : ∀ p ∈ z.zip batch_index,
        (List.zipWith (fun a b => a * b)
          ((logSoftmax ∘ st.classifier) p.1) (foolingTarget st.n_batch p.2)).sum =
        (List.zipWith (fun t lg => t * lg) (foolingTarget st.n_batch p.2)
          (logSoftmax (st.classifier p.1))).sum := by
      intro p _
      rw [List.zipWith_comm_of_comm _ mul_comm]
      rfl
    rw [List.map_congr_left hcong]
  · have h3 : List.range 3 = [0, 1, 2] := by decide
    norm_num [foolingTarget, one_hot, h3]

/-- C5 witness: the fooling-target and loss shape instantiated on the
concrete 3-class adversarial state with a single cell. -/
theorem loss_adversarial_fooling_witness :
    (∀ b, b < advStateW.n_batch → ∀ j, j < advStateW.n_batch →
        (foolingTarget advStateW.n_batch b).getD j 0 =
          if j = b then 0 else 1 / ((advStateW.n_batch : ℝ) - 1))
    ∧ loss_adversarial_classifier advStateW [[0]] [0] false =
        -(listMean ((([[0]] : List (List ℝ)).zip ([0] : List ℕ)).map (fun p =>
            (List.zipWith (fun t lg => t * lg)
              (foolingTarget advStateW.n_batch p.2)
              (logSoftmax (advStateW.classifier p.1))).sum)))
    ∧ foolingTarget 3 0 = [0, 1/2, 1/2] :=
  loss_adversarial_fooling_spec advStateW [[0]] [0] (by decide)

/-- C3: the classifier task's training step is the cross-entropy between the
label logits produced by the attached classification model's classify
capability on the minibatch expression matrix and batch covariate, and the
true labels — equivalently the negated mean log-softmax probability assigned
to each cell's true label, provided each label indexes into its logits row. -/
theorem classifier_training_step_spec (st : ClassifierTaskState) (batch : Batch)
    (hb : ∀ p ∈ (st.sampling_model.classify batch.X batch.batch_indices).zip batch.labels,
        p.2 < p.1.length) :
    classifier_training_step st batch =
      -(listMean (List.zipWith (fun row t => (logSoftmax row).getD t 0)
          (st.sampling_model.classify batch.X batch.batch_indices) batch.labels)) := by
  have hz : List.zipWith
      (fun row t => Real.log ((row.map Real.exp).sum) - row.getD t 0)
      (st.sampling_model.classify batch.X batch.batch_indices) batch.labels
      = (List.zipWith (fun row t => (logSoftmax row).getD t 0)
          (st.sampling_model.classify batch.X batch.batch_indices)
          batch.labels).map (fun x => -x) := by
    rw [List.map_zipWith]
    refine zipWith_congr_zip _ _ _ _ (fun p hp => ?_)
    simp only [logSoftmax]
    rw [getD_map_lt _ _ _ (hb p hp)]
    ring
  simp only [classifier_training_step, cross_entropy]
  rw [hz, listMean_neg]

/-- C3 witness: the cross-entropy shape instantiated on the concrete
classifier-task state with a single cell and single logit. -/
theorem classifier_training_step_witness :
    classifier_training_step clsStateW ⟨[[0]], [0], [0]⟩ =
      -(listMean (List.zipWith (fun row t => (logSoftmax row).getD t 0)
          (clsStateW.sampling_model.classify [[0]] [0]) [0])) :=
  classifier_training_step_spec clsStateW ⟨[[0]], [0], [0]⟩ (by
    intro p hp
    simp only [clsStateW, List.zip_cons_cons, List.zip_nil_right,
      List.mem_singleton] at hp
    subst hp
    simp)

/-- C2: on optimizer 0, for a minibatch of at least 3 cells with a positive
adversarial scale and an enabled classifier, the step record's loss field is
the generative loss computed at the current kl_weight plus kappa times the
fooling loss of the latent codes against the true batch indices (the in-place
torch addition updates the returned tensor), and the remaining fields are the
summed reconstruction loss, summed local KL, global KL, and minibatch
observation count. -/
theorem adv_training_step_spec (st : AdversarialTaskState) (batch : Batch)
    (h3 : 3 ≤ batch.X.length)
    (hk : 0 < kappaOf st)
    (hcls : st.adversarial_classifier_enabled = true)
    (hrec : ((st.forward batch ((kl_weight st.base : ℚ) : ℝ)).2).reconstruction_loss.length
        = batch.X.length) :
    adv_training_step st batch 0 = some (AdvStepResult.record
      { loss := (st.forward batch ((kl_weight st.base : ℚ) : ℝ)).2.loss
          + kappaOf st * loss_adversarial_classifier st
              (st.forward batch ((kl_weight st.base : ℚ) : ℝ)).1 batch.batch_indices false
      , reconstruction_loss_sum :=
          (st.forward batch ((kl_weight st.base : ℚ) : ℝ)).2.reconstruction_loss.sum
      , kl_local_sum := (st.forward batch ((kl_weight st.base : ℚ) : ℝ)).2.kl_local.sum
      , kl_global := (st.forward batch ((kl_weight st.base : ℚ) : ℝ)).2.kl_global
      , n_obs := batch.X.length }) := by
  have hlt : ¬ batch.X.length < 3 := not_lt.2 h3
  have hcond : 0 < kappaOf st ∧ st.adversarial_classifier_enabled = true := ⟨hk, hcls⟩
  simp only [adv_training_step, if_neg hlt, if_pos rfl]
  rw [if_pos hcond, hrec, mul_comm]
  exact if_pos trivial

/-- C2 witness: the optimizer-0 step record on the concrete adversarial state
and a 3-cell minibatch. -/
theorem adv_training_step_witness :
    adv_training_step advStateW ⟨[[1], [1], [1]], [0, 0, 0], [0, 0, 0]⟩ 0 =
      some (AdvStepResult.record
      { loss := (advStateW.forward ⟨[[1], [1], [1]], [0, 0, 0], [0, 0, 0]⟩
            ((kl_weight advStateW.base : ℚ) : ℝ)).2.loss
          + kappaOf advStateW * loss_adversarial_classifier advStateW
              (advStateW.forward ⟨[[1], [1], [1]], [0, 0, 0], [0, 0, 0]⟩
                ((kl_weight advStateW.base : ℚ) : ℝ)).1 [0, 0, 0] false
      , reconstruction_loss_sum :=
          (advStateW.forward ⟨[[1], [1], [1]], [0, 0, 0], [0, 0, 0]⟩
            ((kl_weight advStateW.base : ℚ) : ℝ)).2.reconstruction_loss.sum
      , kl_local_sum := (advStateW.forward ⟨[[1], [1], [1]], [0, 0, 0], [0, 0, 0]⟩
            ((kl_weight advStateW.base : ℚ) : ℝ)).2.kl_local.sum
      , kl_global := (advStateW.forward ⟨[[1], [1], [1]], [0, 0, 0], [0, 0, 0]⟩
            ((kl_weight advStateW.base : ℚ) : ℝ)).2.kl_global
      , n_obs := ((⟨[[1], [1], [1]], [0, 0, 0], [0, 0, 0]⟩ : Batch)).X.length }) :=
  adv_training_step_spec advStateW ⟨[[1], [1], [1]], [0, 0, 0], [0, 0, 0]⟩
    (by decide)
    (by simp [advStateW, kappaOf])
    (by simp [advStateW])
    (by simp [advStateW])

/-- Structural characterization of a successful clustering-accuracy run: the
returned assignment is a permutation of the class range maximizing the
matched-pair score, and the returned value is that score over the length. -/
theorem uca_characterization (y y_pred : List ℕ)
    (hlen : y_pred.length = y.length)
    (hbp : ∀ a ∈ y_pred, a < y.dedup.length)
    (hby : ∀ b ∈ y, b < y.dedup.length)
    (hne : y ≠ []) :
    ∃ ind, unsupervised_clustering_accuracy y y_pred =
        some ((assignmentScore y y_pred ind : ℚ) / (y.length : ℚ), ind)
      ∧ ind ∈ (List.range y.dedup.length).permutations
      ∧ (∀ τ ∈ (List.range y.dedup.length).permutations,
          assignmentScore y y_pred τ ≤ assignmentScore y y_pred ind) := by
  have hn0 : y.dedup.length ≠ 0 := by
    simpa [List.length_eq_zero, List.dedup_eq_nil] using hne
  have hzb : ∀ p ∈ y_pred.zip y, p.1 < y.dedup.length ∧ p.2 < y.dedup.length := by
    rintro ⟨a, b⟩ hp
    obtain ⟨h1, h2⟩ := List.of_mem_zip hp
    exact ⟨hbp _ h1, hby _ h2⟩
  have hR : buildReward y.dedup.length (y_pred.zip y) (fun _ _ => 0) =
      some (pairCount y y_pred) := by
    rw [buildReward_eq y.dedup.length _ _ hzb]
    exact congrArg some (funext fun i => funext fun j => by simp [pairCount])
  have hperm_ne : (List.range y.dedup.length).permutations ≠ [] :=
    List.ne_nil_of_mem (List.mem_permutations.2 (List.Perm.refl _))
  obtain ⟨σ, hσ⟩ : ∃ σ, linear_assignment y.dedup.length
      (fun i j => maxEntry y.dedup.length (pairCount y y_pred) - pairCount y y_pred i j)
        = some σ := by
    cases hcase : linear_assignment y.dedup.length
        (fun i j => maxEntry y.dedup.length (pairCount y y_pred)
          - pairCount y y_pred i j) with
    | none => exact absurd (List.argmin_eq_none.1 hcase) hperm_ne
    | some σ => exact ⟨σ, rfl⟩
  have hσmem : σ ∈ ((List.range y.dedup.length).permutations).argmin
      (fun ind => totalFrom
        (fun i j => maxEntry y.dedup.length (pairCount y y_pred)
          - pairCount y y_pred i j) 0 ind) := Option.mem_def.2 hσ
  have hσperm : σ ∈ (List.range y.dedup.length).permutations := List.argmin_mem hσmem
  have hsum : ∀ τ ∈ (List.range y.dedup.length).permutations,
      totalFrom (pairCount y y_pred) 0 τ
        + totalFrom (fun a b => maxEntry y.dedup.length (pairCount y y_pred)
            - pairCount y y_pred a b) 0 τ
      = y.dedup.length * maxEntry y.dedup.length (pairCount y y_pred) := by
    intro τ hτ
    have hτperm := List.mem_permutations.1 hτ
    have hlenτ : τ.length = y.dedup.length := by
      rw [hτperm.length_eq, List.length_range]
    have hb : ∀ k x, τ[k]? = some x →
        pairCount y y_pred (0 + k) x ≤ maxEntry y.dedup.length (pairCount y y_pred) := by
      intro k x hk
      obtain ⟨hklt, hget⟩ := List.getElem?_eq_some.1 hk
      have hxmem : x ∈ τ := hget ▸ List.getElem_mem hklt
      have hxn : x < y.dedup.length := List.mem_range.1 (hτperm.mem_iff.1 hxmem)
      have hkn : k < y.dedup.length := by
        rw [hlenτ] at hklt
        exact hklt
      exact maxEntry_ge _ _ (by omega) hxn
    have := totalFrom_add_compl (pairCount y y_pred)
      (maxEntry y.dedup.length (pairCount y y_pred)) τ 0 hb
    rw [hlenτ] at this
    exact this
  have hmax : ∀ τ ∈ (List.range y.dedup.length).permutations,
      assignmentScore y y_pred τ ≤ assignmentScore y y_pred σ := by
    intro τ hτ
    have hc := List.le_of_mem_argmin hτ hσmem
    have h1 := hsum τ hτ
    have h2 := hsum σ hσperm
    simp only [assignmentScore]
    omega
  refine ⟨σ, ?_, hσperm, hmax⟩
  simp only [unsupervised_clustering_accuracy, hlen, if_true, eq_self_iff_true, hR,
    if_neg hn0, hσ, assignmentScore]

/-- A successful signed clustering-accuracy run always returns an assignment
drawn from the permutations of the class range. -/
theorem uca_int_some_perm (y y_pred : List ℤ) (r : ℚ) (ind : List ℕ)
    (h : unsupervised_clustering_accuracy_int y y_pred = some (r, ind)) :
    ind ∈ (List.range y.dedup.length).permutations := by
  by_cases hlen : y_pred.length = y.length
  · simp only [unsupervised_clustering_accuracy_int, hlen, if_true,
      eq_self_iff_true] at h
    cases hbr : buildRewardWrap y.dedup.length (y_pred.zip y) (fun _ _ => 0) with
    | none => simp [hbr] at h
    | some R =>
      simp only [hbr] at h
      by_cases hn0 : y.dedup.length = 0
      · simp [hn0] at h
      · simp only [if_neg hn0] at h
        cases hla : linear_assignment y.dedup.length
            (fun i j => maxEntry y.dedup.length R - R i j) with
        | none => simp [hla] at h
        | some σ =>
          simp only [hla, Option.some.injEq, Prod.mk.injEq] at h
          rw [← h.2]
          exact List.argmin_mem (Option.mem_def.2 hla)
  · simp [unsupervised_clustering_accuracy_int, hlen] at h

/-- Characterization of numpy wrapping failure: `wrapIdx` raises exactly on
ids outside `[-n, n)`. -/
theorem wrapIdx_eq_none (n : ℕ) (i : ℤ) :
    wrapIdx n i = none ↔ ¬(-(n : ℤ) ≤ i ∧ i < (n : ℤ)) := by
  unfold wrapIdx
  split_ifs with h1 h2 <;> simp <;> omega

/-- An in-range nonnegative id passes numpy indexing unwrapped. -/
theorem wrapIdx_of_nonneg (n : ℕ) (i : ℤ) (h0 : 0 ≤ i) (hn : i < (n : ℤ)) :
    wrapIdx n i = some i.toNat := by
  simp [wrapIdx, h0, hn]

/-- The signed counting loop succeeds whenever every id is nonnegative and
in range (no wrapping occurs and every access is in bounds). -/
theorem buildRewardWrap_some (n : ℕ) :
    ∀ (pairs : List (ℤ × ℤ)) (R0 : ℕ → ℕ → ℕ),
      (∀ p ∈ pairs, (0 ≤ p.1 ∧ p.1 < (n : ℤ)) ∧ (0 ≤ p.2 ∧ p.2 < (n : ℤ))) →
      ∃ R, buildRewardWrap n pairs R0 = some R
  | [], R0, _ => ⟨R0, rfl⟩
  | (a, b) :: rest, R0, h => by
    obtain ⟨⟨ha0, han⟩, hb0, hbn⟩ := h (a, b) (by simp)
    simp only [buildRewardWrap, wrapIdx_of_nonneg n a ha0 han,
      wrapIdx_of_nonneg n b hb0 hbn]
    exact buildRewardWrap_some n rest _ (fun p hp => h p (List.mem_cons_of_mem _ hp))

/-- The signed counting loop fails as soon as some pair has a component
rejected by numpy indexing. -/
theorem buildRewardWrap_none (n : ℕ) :
    ∀ (pairs : List (ℤ × ℤ)) (R0 : ℕ → ℕ → ℕ),
      (∃ p ∈ pairs, wrapIdx n p.1 = none ∨ wrapIdx n p.2 = none) →
      buildRewardWrap n pairs R0 = none
  | [], _, h => by simp at h
  | (a, b) :: rest, R0, h => by
    rcases h with ⟨p, hp, hv⟩
    rcases List.mem_cons.1 hp with h0 | h0
    · subst h0
      rcases hv with hva | hvb
      · simp [buildRewardWrap, hva]
      · cases hwa : wrapIdx n a with
        | none => simp [buildRewardWrap, hwa]
        | some i => simp [buildRewardWrap, hwa, hvb]
    · cases hwa : wrapIdx n a with
      | none => simp [buildRewardWrap, hwa]
      | some i =>
        cases hwb : wrapIdx n b with
        | none => simp [buildRewardWrap, hwa, hwb]
        | some j =>
          simp only [buildRewardWrap, hwa, hwb]
          exact buildRewardWrap_none n rest _ ⟨p, h0, hv⟩

/-- A pure relabeling along a permutation p admits the inverse permutation as
an assignment matching every pair. -/
theorem relabel_score (y : List ℕ) (p : List ℕ)
    (hp : p ∈ (List.range y.dedup.length).permutations)
    (hby : ∀ b ∈ y, b < y.dedup.length) :
    ∃ q ∈ (List.range y.dedup.length).permutations,
      assignmentScore y (y.map (fun c => p.getD c 0)) q = y.length := by
  have hpperm : p.Perm (List.range y.dedup.length) := List.mem_permutations.1 hp
  have hplen : p.length = y.dedup.length := by
    rw [hpperm.length_eq, List.length_range]
  have hmem : ∀ i, i < y.dedup.length → i ∈ p := fun i hi =>
    hpperm.mem_iff.2 (List.mem_range.2 hi)
  have hnodup : ((List.range y.dedup.length).map (fun i => p.indexOf i)).Nodup := by
    refine List.Nodup.map_on ?_ (List.nodup_range _)
    intro a ha b hb hab
    exact (List.indexOf_inj (hmem a (List.mem_range.1 ha))
      (hmem b (List.mem_range.1 hb))).1 hab
  have hsub : ((List.range y.dedup.length).map (fun i => p.indexOf i))
      ⊆ List.range y.dedup.length := by
    intro v hv
    obtain ⟨i, hi, rfl⟩ := List.mem_map.1 hv
    have : p.indexOf i < p.length :=
      List.indexOf_lt_length.2 (hmem i (List.mem_range.1 hi))
    rw [hplen] at this
    exact List.mem_range.2 this
  have hqperm : ((List.range y.dedup.length).map (fun i => p.indexOf i)).Perm
      (List.range y.dedup.length) := by
    refine (List.subperm_of_subset hnodup hsub).perm_of_length_le ?_
    simp [List.length_map, List.length_range]
  refine ⟨(List.range y.dedup.length).map (fun i => p.indexOf i),
    List.mem_permutations.2 hqperm, ?_⟩
  have hzip : (y.map (fun c => p.getD c 0)).zip y =
      y.map (fun c => (p.getD c 0, c)) := by
    have h := List.zip_map' (fun c => p.getD c 0) id y
    rw [List.map_id] at h
    exact h
  have hcongr : totalFrom (pairCount y (y.map (fun c => p.getD c 0))) 0
      ((List.range y.dedup.length).map (fun i => p.indexOf i))
      = totalFrom (fun _ b => y.count b) 0
          ((List.range y.dedup.length).map (fun i => p.indexOf i)) := by
    refine totalFrom_congr_on _ _ _ 0 ?_
    intro k x hk
    rw [List.getElem?_map] at hk
    cases hrg : (List.range y.dedup.length)[k]? with
    | none => rw [hrg] at hk; cases hk
    | some kv =>
      rw [hrg] at hk
      obtain ⟨hklt, hget⟩ := List.getElem?_eq_some.1 hrg
      rw [List.getElem_range] at hget
      have hkn : k < y.dedup.length := by
        rw [List.length_range] at hklt
        exact hklt
      have hx : x = p.indexOf kv := by
        simpa using hk.symm
      subst hx
      subst hget
      have hkp : k ∈ p := hmem k hkn
      have hidx : p.indexOf k < p.length := List.indexOf_lt_length.2 hkp
      have hpk : p.getD (p.indexOf k) 0 = k := by
        rw [List.getD_eq_getElem?_getD, List.getElem?_eq_getElem hidx]
        exact List.getElem_indexOf hidx
      simp only [pairCount, hzip]
      rw [count_map_eq_countP (fun c => ((p.getD c 0, c) : ℕ × ℕ)) y
        ((0 + k, p.indexOf k) : ℕ × ℕ)]
      rw [List.countP_congr (q := fun c => c = p.indexOf k) ?_, countP_eq_count]
      intro c _
      simp only [decide_eq_true_eq, Prod.mk.injEq]
      constructor
      · intro hcc
        exact hcc.2
      · intro hcc
        subst hcc
        rw [hpk]
        exact ⟨by omega, rfl⟩
  rw [assignmentScore, hcongr, totalFrom_snd (fun b => y.count b)]
  rw [List.Perm.sum_eq (hqperm.map (fun b => y.count b)),
    sum_count_range y.dedup.length y hby]

/-- C9: for equal-length in-range nonempty label vectors, the returned
accuracy is the maximum over cluster-to-label assignments (permutations of
the class range) of the matched-pair count divided by the total count,
returned together with the chosen assignment; consequently the accuracy is 1
whenever the predictions are a pure relabeling of the true labels along a
permutation of the class range. -/
theorem unsupervised_clustering_accuracy_spec (y y_pred : List ℕ)
    (hlen : y_pred.length = y.length)
    (hbp : ∀ a ∈ y_pred, a < y.dedup.length)
    (hby : ∀ b ∈ y, b < y.dedup.length)
    (hne : y ≠ []) :
    ∃ r ind, unsupervised_clustering_accuracy y y_pred = some (r, ind)
      ∧ ind ∈ (List.range y.dedup.length).permutations
      ∧ (∀ τ ∈ (List.range y.dedup.length).permutations,
          assignmentScore y y_pred τ ≤ assignmentScore y y_pred ind)
      ∧ r = (assignmentScore y y_pred ind : ℚ) / (y.length : ℚ)
      ∧ (∀ p ∈ (List.range y.dedup.length).permutations,
          y_pred = y.map (fun c => p.getD c 0) → r = 1) := by
  obtain ⟨ind, hca, hmem, hmax⟩ := uca_characterization y y_pred hlen hbp hby hne
  refine ⟨_, ind, hca, hmem, hmax, rfl, ?_⟩
  intro p hp hrel
  subst hrel
  have hup : assignmentScore y (y.map (fun c => p.getD c 0)) ind ≤ y.length := by
    have h1 : totalFrom (pairCount y (y.map (fun c => p.getD c 0))) 0 ind
        ≤ ((y.map (fun c => p.getD c 0)).zip y).length :=
      totalFrom_count_le ind ((y.map (fun c => p.getD c 0)).zip y)
    have h2 : ((y.map (fun c => p.getD c 0)).zip y).length = y.length := by
      rw [List.length_zip, List.length_map]
      exact min_self _
    rw [h2] at h1
    exact h1
  obtain ⟨q, hq, hscore⟩ := relabel_score y p hp hby
  have hlow : y.length ≤ assignmentScore y (y.map (fun c => p.getD c 0)) ind := by
    have := hmax q hq
    rw [hscore] at this
    exact this
  have heq : assignmentScore y (y.map (fun c => p.getD c 0)) ind = y.length :=
    le_antisymm hup hlow
  rw [heq]
  exact div_self (Nat.cast_ne_zero.2 (List.length_pos.2 hne).ne')

/-- C9 witness: the spec's pure-relabeling example, true labels [0,0,1,1]
against predicted ids [1,1,0,0]. -/
theorem unsupervised_clustering_accuracy_spec_witness :
    ∃ r ind, unsupervised_clustering_accuracy [0, 0, 1, 1] [1, 1, 0, 0] = some (r, ind)
      ∧ ind ∈ (List.range ([0, 0, 1, 1] : List ℕ).dedup.length).permutations
      ∧ (∀ τ ∈ (List.range ([0, 0, 1, 1] : List ℕ).dedup.length).permutations,
          assignmentScore [0, 0, 1, 1] [1, 1, 0, 0] τ
            ≤ assignmentScore [0, 0, 1, 1] [1, 1, 0, 0] ind)
      ∧ r = (assignmentScore [0, 0, 1, 1] [1, 1, 0, 0] ind : ℚ)
          / (([0, 0, 1, 1] : List ℕ).length : ℚ)
      ∧ (∀ p ∈ (List.range ([0, 0, 1, 1] : List ℕ).dedup.length).permutations,
          ([1, 1, 0, 0] : List ℕ) = ([0, 0, 1, 1] : List ℕ).map (fun c => p.getD c 0)
            → r = 1) :=
  unsupervised_clustering_accuracy_spec [0, 0, 1, 1] [1, 1, 0, 0]
    (by decide) (by decide) (by decide) (by decide)

/-- C10, counterexample: the violating-input clause is false of the program.
The input y = [0, 1], y_pred = [-1, 0] violates the claimed range
precondition (the predicted id -1 is not in [0, 2)), yet numpy wraps the -1
to row 1 silently, no assertion or IndexError fires, and the operation
returns the value (1.0, assignment). -/
theorem unsupervised_clustering_accuracy_wrap_counterexample :
    (¬ ∀ a ∈ ([-1, 0] : List ℤ), 0 ≤ a ∧ a < (([0, 1] : List ℤ).dedup.length : ℤ))
    ∧ (unsupervised_clustering_accuracy_int [0, 1] [-1, 0]).isSome = true
    ∧ (unsupervised_clustering_accuracy_int [0, 1] [-1, 0]).map Prod.fst = some 1 := by
  have hbw : buildRewardWrap 2 ((([-1, 0] : List ℤ)).zip ([0, 1] : List ℤ))
      (fun _ _ => 0) = some (bumpReward (bumpReward (fun _ _ => 0) 1 0) 0 1) := rfl
  have hded : (([0, 1] : List ℤ)).dedup.length = 2 := by decide
  have hlen2 : ([-1, 0] : List ℤ).length = ([0, 1] : List ℤ).length := rfl
  have h20 : ¬ (2 : ℕ) = 0 := by decide
  have hperm_ne : (List.range 2).permutations ≠ [] :=
    List.ne_nil_of_mem (List.mem_permutations.2 (List.Perm.refl _))
  obtain ⟨σ, hσ⟩ : ∃ σ, linear_assignment 2
      (fun i j => maxEntry 2 (bumpReward (bumpReward (fun _ _ => 0) 1 0) 0 1)
        - bumpReward (bumpReward (fun _ _ => 0) 1 0) 0 1 i j) = some σ := by
    cases hcase : linear_assignment 2
        (fun i j => maxEntry 2 (bumpReward (bumpReward (fun _ _ => 0) 1 0) 0 1)
          - bumpReward (bumpReward (fun _ _ => 0) 1 0) 0 1 i j) with
    | none => exact absurd (List.argmin_eq_none.1 hcase) hperm_ne
    | some σ => exact ⟨σ, rfl⟩
  have hσmem : σ ∈ ((List.range 2).permutations).argmin
      (fun ind => totalFrom
        (fun i j => maxEntry 2 (bumpReward (bumpReward (fun _ _ => 0) 1 0) 0 1)
          - bumpReward (bumpReward (fun _ _ => 0) 1 0) 0 1 i j) 0 ind) :=
    Option.mem_def.2 hσ
  have hσperm : σ ∈ (List.range 2).permutations := List.argmin_mem hσmem
  have hσlen : σ.length = 2 := by
    rw [(List.mem_permutations.1 hσperm).length_eq, List.length_range]
  have hmem10 : ([1, 0] : List ℕ) ∈ (List.range 2).permutations := by
    rw [List.mem_permutations, show List.range 2 = [0, 1] from by decide]
    exact List.Perm.swap 0 1 []
  have hM : maxEntry 2 (bumpReward (bumpReward (fun _ _ => 0) 1 0) 0 1) = 1 := by
    decide
  have hRle : ∀ i j, bumpReward (bumpReward (fun _ _ => 0) 1 0) 0 1 i j
      ≤ maxEntry 2 (bumpReward (bumpReward (fun _ _ => 0) 1 0) 0 1) := by
    intro i j
    rw [hM]
    simp only [bumpReward]
    split_ifs <;> omega
  have hcompl := totalFrom_add_compl (bumpReward (bumpReward (fun _ _ => 0) 1 0) 0 1)
    (maxEntry 2 (bumpReward (bumpReward (fun _ _ => 0) 1 0) 0 1)) σ 0
    (fun k x _ => hRle _ _)
  have hcost10 : totalFrom
      (fun i j => maxEntry 2 (bumpReward (bumpReward (fun _ _ => 0) 1 0) 0 1)
        - bumpReward (bumpReward (fun _ _ => 0) 1 0) 0 1 i j) 0 [1, 0] = 0 := by
    decide
  have hcle := List.le_of_mem_argmin hmem10 hσmem
  simp only [] at hcle
  rw [hcost10] at hcle
  have hscore : totalFrom (bumpReward (bumpReward (fun _ _ => 0) 1 0) 0 1) 0 σ = 2 := by
    rw [hσlen, hM] at hcompl
    rw [hM] at hcle
    omega
  have main : unsupervised_clustering_accuracy_int [0, 1] [-1, 0] =
      some (((totalFrom (bumpReward (bumpReward (fun _ _ => 0) 1 0) 0 1) 0 σ : ℕ) : ℚ)
        / ((([-1, 0] : List ℤ).length : ℕ) : ℚ), σ) := by
    simp only [unsupervised_clustering_accuracy_int, hlen2, if_true, eq_self_iff_true,
      hded, hbw, if_neg h20, hσ]
  refine ⟨by decide, ?_, ?_⟩
  · rw [main]
    rfl
  · rw [main]
    have hl2 : (([-1, 0] : List ℤ).length : ℕ) = 2 := rfl
    rw [hscore, hl2]
    norm_num

/-- C10 (amended): under the claimed precondition (equal lengths, every
predicted id and true label a nonnegative integer below the number of
distinct true labels) the counting loop performs only in-bounds reward
accesses at the literal indices and any returned assignment indexes only
in-bounds rows and columns; the operation fails rather than returning a
value exactly on inputs with mismatched lengths or an id outside numpy's
accepted range [-n, n) — an id in [-n, -1] violates the precondition yet is
wrapped silently and can return a value, as the counterexample shows. -/
theorem unsupervised_clustering_accuracy_int_safety (y y_pred : List ℤ) :
    ((y_pred.length = y.length
        ∧ (∀ a ∈ y_pred, 0 ≤ a ∧ a < (y.dedup.length : ℤ))
        ∧ (∀ b ∈ y, 0 ≤ b ∧ b < (y.dedup.length : ℤ))) →
      (∃ R, buildRewardWrap y.dedup.length (y_pred.zip y) (fun _ _ => 0) = some R)
      ∧ (∀ r ind, unsupervised_clustering_accuracy_int y y_pred = some (r, ind) →
          ind.length = y.dedup.length ∧ ∀ i ∈ ind, i < y.dedup.length))
    ∧ (¬(y_pred.length = y.length
        ∧ (∀ a ∈ y_pred, -(y.dedup.length : ℤ) ≤ a ∧ a < (y.dedup.length : ℤ))
        ∧ (∀ b ∈ y, -(y.dedup.length : ℤ) ≤ b ∧ b < (y.dedup.length : ℤ))) →
      unsupervised_clustering_accuracy_int y y_pred = none) := by
  constructor
  · rintro ⟨hlen, hbp, hby⟩
    constructor
    · refine buildRewardWrap_some _ _ _ ?_
      rintro ⟨a, b⟩ hp
      obtain ⟨h1, h2⟩ := List.of_mem_zip hp
      exact ⟨hbp _ h1, hby _ h2⟩
    · intro r ind h
      have hperm := List.mem_permutations.1 (uca_int_some_perm y y_pred r ind h)
      constructor
      · rw [hperm.length_eq, List.length_range]
      · intro i hi
        exact List.mem_range.1 (hperm.mem_iff.1 hi)
  · intro hnp
    by_cases hlen : y_pred.length = y.length
    · have hviol :
          (∃ a ∈ y_pred, ¬(-(y.dedup.length : ℤ) ≤ a ∧ a < (y.dedup.length : ℤ)))
          ∨ (∃ b ∈ y, ¬(-(y.dedup.length : ℤ) ≤ b ∧ b < (y.dedup.length : ℤ))) := by
        by_contra hcon
        push_neg at hcon
        refine hnp ⟨hlen, fun a ha => ?_, fun b hb => ?_⟩
        · have := hcon.1 a ha
          omega
        · have := hcon.2 b hb
          omega
      have hzv : ∃ pz ∈ y_pred.zip y, wrapIdx y.dedup.length pz.1 = none
          ∨ wrapIdx y.dedup.length pz.2 = none := by
        rcases hviol with ⟨a, ha, hav⟩ | ⟨b, hb, hbv⟩
        · obtain ⟨k, hk, hget⟩ := List.mem_iff_getElem.1 ha
          have hkz : k < (y_pred.zip y).length := by
            rw [List.length_zip, hlen, min_self, ← hlen]
            exact hk
          refine ⟨(y_pred.zip y)[k], List.getElem_mem hkz, Or.inl ?_⟩
          have hfst : ((y_pred.zip y)[k]).1 = a := by
            rw [List.getElem_zip]
            exact hget
          rw [hfst, wrapIdx_eq_none]
          exact hav
        · obtain ⟨k, hk, hget⟩ := List.mem_iff_getElem.1 hb
          have hkz : k < (y_pred.zip y).length := by
            rw [List.length_zip, hlen, min_self]
            exact hk
          refine ⟨(y_pred.zip y)[k], List.getElem_mem hkz, Or.inr ?_⟩
          have hsnd : ((y_pred.zip y)[k]).2 = b := by
            rw [List.getElem_zip]
            exact hget
          rw [hsnd, wrapIdx_eq_none]
          exact hbv
      obtain ⟨pz, hpz, hv⟩ := hzv
      have hnone := buildRewardWrap_none y.dedup.length (y_pred.zip y)
        (fun _ _ => 0) ⟨pz, hpz, hv⟩
      simp [unsupervised_clustering_accuracy_int, hlen, hnone]
    · simp [unsupervised_clustering_accuracy_int, hlen]

/-- C10 witness: a length-mismatched input fails and returns no value. -/
theorem unsupervised_clustering_accuracy_int_safety_witness :
    unsupervised_clustering_accuracy_int [0] [0, 1] = none :=
  (unsupervised_clustering_accuracy_int_safety [0] [0, 1]).2 (by decide)

end Scvi
